import Mathlib

/-!
Verification of the MLS salary report pipeline (`mls.go`, CLI variant).

Strings are modelled as lists of characters; Go `float64` amounts are
modelled as rationals (the claims under study concern control flow,
ordering and aggregation, not floating-point rounding).
-/

set_option maxHeartbeats 1000000

/-- Strings are modelled as lists of characters. -/
abbrev Str := List Char

/-- `Player` mirrors the Go struct `Player` (club, name, pos, BaseSalary,
Compensation); the zero value has empty strings and zero amounts. -/
structure Player where
  club : Str
  name : Str
  pos : Str
  baseSalary : ℚ
  compensation : ℚ
deriving Repr, DecidableEq

/-- The Go zero value `Player{}`. -/
def initPlayer : Player := ⟨[], [], [], 0, 0⟩

/-- `allClubs` from `mls.go`: a map from full club names to abbreviations,
modelled as an association list (map iteration order is never relied on by
the functions below). -/
def allClubs : List (Str × Str) := [
  ("New England Revolution".toList, "NE".toList),
  ("Orlando City SC".toList, "ORL".toList),
  ("San Jose Earthquakes".toList, "SJ".toList),
  ("Vancouver Whitecaps".toList, "VAN".toList),
  ("Columbus Crew".toList, "CLB".toList),
  ("DC United".toList, "DC".toList),
  ("Minnesota United".toList, "MNUFC".toList),
  ("Seattle Sounders FC".toList, "SEA".toList),
  ("Chicago Fire".toList, "CHI".toList),
  ("Colorado Rapids".toList, "COL".toList),
  ("FC Dallas".toList, "DAL".toList),
  ("Sporting Kansas City".toList, "KC".toList),
  ("LA Galaxy".toList, "LA".toList),
  ("LAFC".toList, "LAFC".toList),
  ("Montreal".toList, "MTL".toList),
  ("New York Red Bulls".toList, "NYRB".toList),
  ("Toronto FC".toList, "TOR".toList),
  ("Atlanta United".toList, "ATL".toList),
  ("Houston Dynamo".toList, "HOU".toList),
  ("New York City FC".toList, "NYCFC".toList),
  ("Philadelphia Union".toList, "PHI".toList),
  ("Portland Timbers".toList, "POR".toList),
  ("Real Salt Lake".toList, "RSL".toList),
  ("FC Cincinnati".toList, "CIN".toList),
  ("NY".toList, "NYRB".toList),
  ("Chivas USA".toList, "CHV".toList),
  ("Nashville SC".toList, "NSC".toList),
  ("Inter Miami".toList, "MIA".toList),
  ("Austin FC".toList, "AFC".toList)]

/-- `allPos` from `mls.go`: the fixed set of player positions. -/
def allPos : List Str := [
  "F".toList, "M-F".toList, "F-M".toList, "F/M".toList, "GK".toList,
  "D".toList, "D-M".toList, "M-D".toList, "M".toList, "M/F".toList]

/-- `Clubs.getKey`: find the key whose value equals `v` (used only for its
success/failure by `HasVal`/`Abv`). -/
def clubsGetKey (cs : List (Str × Str)) (v : Str) : Option Str :=
  match cs.find? (fun kv => kv.2 == v) with
  | some kv => some kv.1
  | none => none

/-- `Clubs.HasVal`: `s` is the full or abbreviated name of a club. -/
def clubsHasVal (cs : List (Str × Str)) (s : Str) : Bool :=
  (cs.find? (fun kv => kv.1 == s)).isSome || (clubsGetKey cs s).isSome

/-- `Clubs.Abv`: the abbreviated name of a club (empty if unknown). -/
def clubsAbv (cs : List (Str × Str)) (s : Str) : Str :=
  match cs.find? (fun kv => kv.1 == s) with
  | some kv => kv.2
  | none => if (clubsGetKey cs s).isSome then s else []

/-- `strings.ToUpper`, restricted to the ASCII data in play. -/
def strUpper (s : Str) : Str := s.map Char.toUpper

/-- `strings.ToLower`, restricted to the ASCII data in play. -/
def strLower (s : Str) : Str := s.map Char.toLower

/-- `Pos.HasVal`: membership of the upper-cased token in the position set. -/
def posHasVal (ps : List Str) (s : Str) : Bool := ps.contains (strUpper s)

/-- ASCII decimal digit test, as in `token[0] >= '0' && token[0] <= '9'`. -/
def isDigitChar (c : Char) : Bool := '0' ≤ c && c ≤ '9'

/-- The guard of the salary case: the token starts with `'$'` or a digit. -/
def amtStart (t : Str) : Bool :=
  match t with
  | [] => false
  | c :: _ => c == '$' || isDigitChar c

/-- `strings.TrimLeft(token, "$")`: drop every leading dollar sign. -/
def dropDollars (t : Str) : Str := t.dropWhile (fun c => c == '$')

/-- `strings.Replace(token, ",", "", -1)`: remove every comma. -/
def dropCommas (t : Str) : Str := t.filter (fun c => !(c == ','))

/-- Digit/decimal-point scanner underlying the `ParseFloat` model: `num`
accumulates the digits read, `scale` counts digits after the point. -/
def parseDigits : Str → Bool → Bool → ℕ → ℕ → Option ℚ
  | [], seenDigit, _, num, scale =>
    if seenDigit then some (mkRat (num : ℤ) ((10 : ℕ) ^ scale)) else none
  | c :: cs, seenDigit, seenDot, num, scale =>
    if isDigitChar c then
      parseDigits cs true seenDot (10 * num + (c.toNat - 48))
        (if seenDot then scale + 1 else scale)
    else if c == '.' && !seenDot then parseDigits cs seenDigit true num scale
    else none

/-- Model of `strconv.ParseFloat` on the plain decimal forms occurring in
the data files: an optional sign followed by digits with at most one
decimal point. Exponent, hexadecimal and Inf/NaN forms are not modelled. -/
def parseFloatQ (t : Str) : Option ℚ :=
  match t with
  | '-' :: rest =>
    match parseDigits rest false false 0 0 with
    | some q => some (-q)
    | none => none
  | '+' :: rest => parseDigits rest false false 0 0
  | _ => parseDigits t false false 0 0

/-- One iteration of the token loop in `main`: the `switch` classifying a
single token into club / position / salary / name fragment. -/
def stepToken (p : Player) (token : Str) : Player :=
  if token == [] then p
  else if clubsHasVal allClubs token then { p with club := clubsAbv allClubs token }
  else if posHasVal allPos token then { p with pos := token }
  else if amtStart token then
    let t := dropDollars token
    if t == [] then p
    else
      match parseFloatQ (dropCommas t) with
      | none => p
      | some val =>
        if p.baseSalary == 0 then { p with baseSalary := val }
        else { p with compensation := val }
  else if p.name == [] then { p with name := token }
  else { p with name := p.name ++ ' ' :: token }

/-- The whole token loop: classify the tokens of one line in order,
starting from the zero `Player`. -/
def classifyTokens (ts : List Str) : Player := ts.foldl stepToken initPlayer

/-- `strings.Split` for a one-character separator. -/
def splitOnChar (sep : Char) : Str → List Str
  | [] => [[]]
  | c :: cs =>
    if c == sep then [] :: splitOnChar sep cs
    else
      match splitOnChar sep cs with
      | [] => [[c]]
      | t :: ts => (c :: t) :: ts

/-- Classify one raw line: split on the separator, then run the token loop. -/
def classifyLine (sep : Char) (line : Str) : Player :=
  classifyTokens (splitOnChar sep line)

example : classifyTokens
    ["LAFC".toList, "Carlos".toList, "Vela".toList, "F".toList,
      "$50,000".toList, "$6,300,000".toList] =
    ⟨"LAFC".toList, "Carlos Vela".toList, "F".toList, 50000, 6300000⟩ := by
  decide

example : classifyLine ' ' "NY Wayne Rooney F-M $25 $35,000.50".toList =
    ⟨"NYRB".toList, "Wayne Rooney".toList, "F-M".toList, 25, mkRat 70001 2⟩ := by
  decide

/-- The discard rule guarding `all = append(all, player)`: a record is kept
only when it has a club, or a position, or compensation at least 30000. -/
def keepPlayer (p : Player) : Bool :=
  !(p.club == [] && p.pos == [] && decide (p.compensation < 30000))

/-- Prefix test on character lists (`needle` is a prefix of `hs`). -/
def startsWith : Str → Str → Bool
  | _, [] => true
  | [], _ :: _ => false
  | a :: as, b :: bs => a == b && startsWith as bs

/-- `strings.Contains hs needle`: `needle` occurs contiguously in `hs`. -/
def containsSub : Str → Str → Bool
  | [], needle => needle.isEmpty
  | a :: rest, needle => startsWith (a :: rest) needle || containsSub rest needle

/-- `Players.HasVal`: some filter entry is a case-insensitive substring of
the candidate name. -/
def playersHasVal (entries : List Str) (s : Str) : Bool :=
  entries.any (fun e => containsSub (strLower s) (strLower e))

/-- The optional filters of `main`: club allow-list (as the `Clubs` map the
flag parser builds), position allow-list, player-name allow-list, and the
`-dp` designated-player flag. An empty list models a `nil` (unset) filter. -/
structure FilterSpec where
  clubs : List (Str × Str)
  pos : List Str
  players : List Str
  dp : Bool

/-- The four `continue` guards after the discard rule, as one predicate:
a record survives them iff every supplied filter dimension accepts it. -/
def acceptPlayer (fs : FilterSpec) (dps : List Str) (p : Player) : Bool :=
  (fs.clubs.isEmpty || clubsHasVal fs.clubs p.club) &&
  (fs.pos.isEmpty || posHasVal fs.pos p.pos) &&
  (!fs.dp || playersHasVal dps p.name) &&
  (fs.players.isEmpty || playersHasVal fs.players p.name)

/-- One iteration of the scanner loop: classify the line, apply the discard
rule and the filters, and on success append the record and add its
compensation to the club's running total. -/
def processStep (fs : FilterSpec) (dps : List Str) (sep : Char)
    (acc : List Player × (Str → ℚ)) (line : Str) : List Player × (Str → ℚ) :=
  let p := classifyLine sep line
  if keepPlayer p && acceptPlayer fs dps p then
    (acc.1 ++ [p], fun c => if c = p.club then acc.2 c + p.compensation else acc.2 c)
  else acc

/-- The scanner loop over the whole input: the retained records in input
order together with the club-totals map. -/
def processLines (fs : FilterSpec) (dps : List Str) (sep : Char)
    (lines : List Str) : List Player × (Str → ℚ) :=
  lines.foldl (processStep fs dps sep) ([], fun _ => 0)

/-- Comparator of the first report sort: compensation descending. -/
def compDesc (a b : Player) : Prop := b.compensation ≤ a.compensation

/-- Comparator of the optional second, stable report sort: club ascending
(string order), from `all[i].Club < all[j].Club`. -/
def clubLe (a b : Player) : Prop := a.club ≤ b.club

instance : DecidableRel clubLe := fun a b =>
  inferInstanceAs (Decidable (a.club ≤ b.club))

/-- The stable sort by club (`sort.SliceStable`): a stable sort's output is
the unique sorted permutation preserving the relative order of records with
equal clubs, so insertion sort computes it. -/
def sortByClub (l : List Player) : List Player := List.insertionSort clubLe l

/-- Records `a` before `b` respect compensation order within one club. -/
def sameClubCompDesc (a b : Player) : Prop :=
  a.club = b.club → b.compensation ≤ a.compensation

/-- `KeyValue` from `mls.go`: one club's total. -/
structure KeyValue where
  key : Str
  value : ℚ
deriving Repr, DecidableEq

/-- Comparator of `ClubTotals.Sort`: total descending (`p[i].Value > p[j].Value`). -/
def valueGe (a b : KeyValue) : Prop := b.value ≤ a.value

instance : DecidableRel valueGe := fun a b =>
  inferInstanceAs (Decidable (b.value ≤ a.value))

/-- `ClubTotals.Sort` applied to the entries in some map-iteration order:
sort the slice by total descending (the Go comparator looks only at the
values, so equal totals keep their iteration-order arrangement). -/
def sortTotals (entries : List KeyValue) : List KeyValue :=
  List.insertionSort valueGe entries

/-! ### Case lemmas for the token classifier -/

lemma stepToken_nil_token (p : Player) : stepToken p [] = p := by
  simp [stepToken]

lemma stepToken_club (p : Player) {t : Str} (ht : t ≠ [])
    (h : clubsHasVal allClubs t = true) :
    stepToken p t = { p with club := clubsAbv allClubs t } := by
  simp [stepToken, beq_eq_false_iff_ne.mpr ht, h]

lemma stepToken_pos (p : Player) {t : Str} (ht : t ≠ [])
    (h1 : clubsHasVal allClubs t = false) (h2 : posHasVal allPos t = true) :
    stepToken p t = { p with pos := t } := by
  simp [stepToken, beq_eq_false_iff_ne.mpr ht, h1, h2]

lemma stepToken_amt (p : Player) {t : Str} (ht : t ≠ [])
    (h1 : clubsHasVal allClubs t = false) (h2 : posHasVal allPos t = false)
    (h3 : amtStart t = true) :
    stepToken p t =
      (if dropDollars t == [] then p
       else
         match parseFloatQ (dropCommas (dropDollars t)) with
         | none => p
         | some val =>
           if p.baseSalary == 0 then { p with baseSalary := val }
           else { p with compensation := val }) := by
  simp [stepToken, beq_eq_false_iff_ne.mpr ht, h1, h2, h3]

lemma stepToken_name (p : Player) {t : Str} (ht : t ≠ [])
    (h1 : clubsHasVal allClubs t = false) (h2 : posHasVal allPos t = false)
    (h3 : amtStart t = false) :
    stepToken p t =
      { p with name := if p.name == [] then t else p.name ++ ' ' :: t } := by
  by_cases hn : p.name = [] <;>
    simp [stepToken, beq_eq_false_iff_ne.mpr ht, h1, h2, h3, hn]

lemma foldl_stepToken_filter (p : Player) (ts : List Str) :
    ts.foldl stepToken p = (ts.filter (fun s => !(s == []))).foldl stepToken p := by
  induction ts generalizing p with
  | nil => rfl
  | cons t ts ih =>
    by_cases h : t = []
    · subst h
      simp [stepToken_nil_token, ih, List.filter]
    · simp [List.filter, beq_eq_false_iff_ne.mpr h, ih]

/-! ### C1: token classification order and precedence -/

/-- C1: every line is classified over its non-empty tokens in original
left-to-right order, and each non-empty token is handled by this exact
precedence: club match sets the club (canonical abbreviation); otherwise a
position match sets the position; otherwise a token starting with `'$'` or
a digit is treated as an amount (club, position and name are untouched);
otherwise the token is appended to the name, space-separated. -/
theorem c1_classifier_precedence (sep : Char) (line : Str) (p : Player)
    (t : Str) (ht : t ≠ []) :
    classifyLine sep line =
      classifyTokens ((splitOnChar sep line).filter (fun s => !(s == []))) ∧
    (clubsHasVal allClubs t = true →
      stepToken p t = { p with club := clubsAbv allClubs t }) ∧
    (clubsHasVal allClubs t = false → posHasVal allPos t = true →
      stepToken p t = { p with pos := t }) ∧
    (clubsHasVal allClubs t = false → posHasVal allPos t = false →
      amtStart t = true →
      (stepToken p t).club = p.club ∧ (stepToken p t).pos = p.pos ∧
        (stepToken p t).name = p.name) ∧
    (clubsHasVal allClubs t = false → posHasVal allPos t = false →
      amtStart t = false →
      stepToken p t =
        { p with name := if p.name == [] then t else p.name ++ ' ' :: t }) := by
  refine ⟨foldl_stepToken_filter initPlayer (splitOnChar sep line), ?_, ?_, ?_, ?_⟩
  · intro h
    exact stepToken_club p ht h
  · intro h1 h2
    exact stepToken_pos p ht h1 h2
  · intro h1 h2 h3
    rw [stepToken_amt p ht h1 h2 h3]
    by_cases hd : dropDollars t == []
    · simp [hd]
    · simp only [hd, if_false, Bool.false_eq_true]
      cases parseFloatQ (dropCommas (dropDollars t)) with
      | none => exact ⟨rfl, rfl, rfl⟩
      | some v =>
        by_cases hb : p.baseSalary == 0 <;> simp [hb]
  · intro h1 h2 h3
    exact stepToken_name p ht h1 h2 h3

/-- Witness for C1: the four branches evaluated on concrete tokens. -/
theorem c1_witness :
    classifyLine ' ' "LAFC  Vela".toList =
      classifyTokens ((splitOnChar ' ' "LAFC  Vela".toList).filter
        (fun s => !(s == []))) ∧
    stepToken initPlayer "LAFC".toList =
      { initPlayer with club := clubsAbv allClubs "LAFC".toList } ∧
    stepToken initPlayer "GK".toList = { initPlayer with pos := "GK".toList } ∧
    (stepToken initPlayer "$5".toList).name = initPlayer.name ∧
    stepToken initPlayer "Vela".toList =
      { initPlayer with
          name := if initPlayer.name == [] then "Vela".toList
            else initPlayer.name ++ ' ' :: "Vela".toList } :=
  ⟨(c1_classifier_precedence ' ' "LAFC  Vela".toList initPlayer "x".toList
      (by decide)).1,
   (c1_classifier_precedence ' ' [] initPlayer "LAFC".toList
      (by decide)).2.1 (by decide),
   (c1_classifier_precedence ' ' [] initPlayer "GK".toList
      (by decide)).2.2.1 (by decide) (by decide),
   ((c1_classifier_precedence ' ' [] initPlayer "$5".toList
      (by decide)).2.2.2.1 (by decide) (by decide) (by decide)).2.2,
   (c1_classifier_precedence ' ' [] initPlayer "Vela".toList
      (by decide)).2.2.2.2 (by decide) (by decide) (by decide)⟩

/-! ### C3: amount tokens -/

/-- C3: a token starting with `'$'` or a digit has its leading dollar
signs stripped and its commas removed; if nothing is left, or the rest
fails to parse as a decimal number, the token is skipped silently (the
record, including the name, is unchanged); a successful parse fills
`baseSalary` when it is currently zero and otherwise fills
`compensation`. -/
theorem c3_amount_parsing (p : Player) (t : Str) (ht : t ≠ [])
    (h1 : clubsHasVal allClubs t = false) (h2 : posHasVal allPos t = false)
    (h3 : amtStart t = true) :
    (dropDollars t = [] → stepToken p t = p) ∧
    (parseFloatQ (dropCommas (dropDollars t)) = none → stepToken p t = p) ∧
    (∀ v : ℚ, parseFloatQ (dropCommas (dropDollars t)) = some v →
      dropDollars t ≠ [] →
      stepToken p t =
        (if p.baseSalary = 0 then { p with baseSalary := v }
         else { p with compensation := v })) := by
  rw [stepToken_amt p ht h1 h2 h3]
  refine ⟨fun hd => by simp [hd], fun hp => ?_, fun v hp hd => ?_⟩
  · by_cases hd : dropDollars t == [] <;> simp [hd, hp]
  · rw [if_neg (by simpa using hd), hp]
    by_cases hb : p.baseSalary = 0 <;> simp [hb]

/-- Witness for C3: a skipped all-dollars token, a skipped unparsable
token, and a successfully parsed token filling the base salary. -/
theorem c3_witness :
    stepToken initPlayer "$$".toList = initPlayer ∧
    stepToken initPlayer "$1..2".toList = initPlayer ∧
    stepToken initPlayer "$1,500.25".toList =
      (if initPlayer.baseSalary = 0
       then { initPlayer with baseSalary := mkRat 6001 4 }
       else { initPlayer with compensation := mkRat 6001 4 }) :=
  ⟨(c3_amount_parsing initPlayer "$$".toList (by decide) (by decide)
      (by decide) (by decide)).1 (by decide),
   (c3_amount_parsing initPlayer "$1..2".toList (by decide) (by decide)
      (by decide) (by decide)).2.1 (by decide),
   (c3_amount_parsing initPlayer "$1,500.25".toList (by decide) (by decide)
      (by decide) (by decide)).2.2 (mkRat 6001 4) (by decide) (by decide)⟩

/-! ### Pipeline lemmas: retained records and totals -/

lemma processLines_fst_acc (fs : FilterSpec) (dps : List Str) (sep : Char)
    (lines : List Str) (acc : List Player × (Str → ℚ)) :
    (lines.foldl (processStep fs dps sep) acc).1 =
      acc.1 ++ (lines.map (classifyLine sep)).filter
        (fun p => keepPlayer p && acceptPlayer fs dps p) := by
  induction lines generalizing acc with
  | nil => simp
  | cons l ls ih =>
    simp only [List.foldl, List.map, List.filter]
    by_cases h :
        keepPlayer (classifyLine sep l) && acceptPlayer fs dps (classifyLine sep l)
    · rw [processStep, if_pos h, ih, h]
      simp
    · rw [processStep, if_neg (by simpa using h), ih]
      simp only [Bool.not_eq_true] at h
      rw [h]

lemma processLines_snd_acc (fs : FilterSpec) (dps : List Str) (sep : Char)
    (lines : List Str) (acc : List Player × (Str → ℚ)) (g : Str) :
    (lines.foldl (processStep fs dps sep) acc).2 g =
      acc.2 g +
        ((((lines.map (classifyLine sep)).filter
            (fun p => keepPlayer p && acceptPlayer fs dps p)).filter
          (fun p => p.club == g)).map Player.compensation).sum := by
  induction lines generalizing acc with
  | nil => simp
  | cons l ls ih =>
    simp only [List.foldl_cons, List.map_cons, List.filter_cons]
    by_cases h :
        keepPlayer (classifyLine sep l) && acceptPlayer fs dps (classifyLine sep l)
    · rw [processStep, if_pos h, ih]
      simp only [h, if_true]
      by_cases hg : (classifyLine sep l).club == g
      · have hg' : (classifyLine sep l).club = g := eq_of_beq hg
        simp only [List.filter_cons, hg, if_true, List.map_cons, List.sum_cons,
          if_pos hg'.symm]
        ring
      · have hg' : ¬ g = (classifyLine sep l).club := fun he =>
          absurd (beq_iff_eq.mpr he.symm) (by simpa using hg)
        simp only [List.filter_cons, hg, if_neg hg']
        simp
    · rw [processStep, if_neg (by simpa using h), ih]
      simp only [Bool.not_eq_true] at h
      simp [h]

/-! ### C2: discard rule, C5: group totals -/

/-- C2: the retained record list is exactly the classified records that
pass the discard rule (non-empty club, or non-empty position, or
compensation at least 30000) and then every filter; a record failing the
discard rule is dropped before filtering and never appended. -/
theorem c2_discard_rule (fs : FilterSpec) (dps : List Str) (sep : Char)
    (lines : List Str) :
    (processLines fs dps sep lines).1 =
      ((lines.map (classifyLine sep)).filter (fun p => keepPlayer p)).filter
        (fun p => acceptPlayer fs dps p) := by
  rw [processLines, processLines_fst_acc, List.filter_filter]
  simp only [List.nil_append]
  exact List.filter_congr (fun p _ => Bool.and_comm _ _)

/-- C5: for every group `g`, the accumulated total for `g` is the sum of
the compensations of exactly the retained, filter-passing records whose
club is `g`. -/
theorem c5_group_totals (fs : FilterSpec) (dps : List Str) (sep : Char)
    (lines : List Str) (g : Str) :
    (processLines fs dps sep lines).2 g =
      (((processLines fs dps sep lines).1.filter
        (fun p => p.club == g)).map Player.compensation).sum := by
  rw [processLines, processLines_snd_acc, processLines_fst_acc]
  simp

/-! ### C4: filters are a conjunction of supplied allow-lists -/

/-- C4: a record passes the filter stage iff every supplied filter
dimension accepts it: an unset dimension imposes no constraint; the club
and position dimensions test membership of the record's club/position in
the allow-list; the designated-player flag requires a match in the DP name
list; the name dimension holds iff some allow-list entry is a
case-insensitive substring of the record's name. -/
theorem c4_filter_conjunction (fs : FilterSpec) (dps : List Str) (p : Player) :
    acceptPlayer fs dps p = true ↔
      (fs.clubs = [] ∨ clubsHasVal fs.clubs p.club = true) ∧
      (fs.pos = [] ∨ posHasVal fs.pos p.pos = true) ∧
      (fs.dp = true → playersHasVal dps p.name = true) ∧
      (fs.players = [] ∨ ∃ e ∈ fs.players,
        containsSub (strLower p.name) (strLower e) = true) := by
  simp only [acceptPlayer, Bool.and_eq_true, Bool.or_eq_true,
    List.isEmpty_iff, Bool.not_eq_true']
  constructor
  · rintro ⟨⟨⟨hc, hp⟩, hdp⟩, hn⟩
    refine ⟨hc, hp, ?_, ?_⟩
    · intro hd
      rcases hdp with h | h
      · rw [hd] at h
        cases h
      · exact h
    · rcases hn with h | h
      · exact Or.inl h
      · exact Or.inr (by simpa [playersHasVal, List.any_eq_true] using h)
  · rintro ⟨hc, hp, hdp, hn⟩
    refine ⟨⟨⟨hc, hp⟩, ?_⟩, ?_⟩
    · cases hd : fs.dp with
      | false => exact Or.inl rfl
      | true => exact Or.inr (hdp hd)
    · rcases hn with h | h
      · exact Or.inl h
      · exact Or.inr (by simpa [playersHasVal, List.any_eq_true] using h)

/-! ### C7: alias resolution for club tokens -/

lemma allClubs_canonical :
    ∀ kv ∈ allClubs, kv.1 ≠ [] ∧ kv.2 ≠ [] ∧
      clubsHasVal allClubs kv.1 = true ∧ clubsHasVal allClubs kv.2 = true ∧
      clubsAbv allClubs kv.1 = kv.2 ∧ clubsAbv allClubs kv.2 = kv.2 := by
  decide

/-- C7 counterexample: club matching in `mls.go` is case-sensitive, not
case-insensitive. The token `"lafc"` is a case-insensitive spelling of the
recognized abbreviation `"LAFC"`, yet the produced record's club is empty
rather than the canonical abbreviation. -/
theorem c7_counterexample :
    strLower "lafc".toList = strLower "LAFC".toList ∧
    clubsHasVal allClubs "LAFC".toList = true ∧
    (classifyTokens ["lafc".toList]).club = [] := by
  decide

/-- C7 amended: for every token exactly equal (case-sensitively) to a
club's full name or abbreviation, classification sets the record's club to
that club's single canonical abbreviation, whichever recognized spelling
appeared. -/
theorem c7_canonical_abbreviation (p : Player) (k v t : Str)
    (hmem : (k, v) ∈ allClubs) (ht : t = k ∨ t = v) :
    (stepToken p t).club = v := by
  obtain ⟨hk, hv, hhk, hhv, hak, hav⟩ := allClubs_canonical (k, v) hmem
  rcases ht with rfl | rfl
  · rw [stepToken_club p hk hhk, hak]
  · rw [stepToken_club p hv hhv, hav]

/-- Witness for C7: the alias `"NY"` resolves to the canonical `"NYRB"`. -/
theorem c7_witness : (stepToken initPlayer "NY".toList).club = "NYRB".toList :=
  c7_canonical_abbreviation initPlayer "NY".toList "NYRB".toList "NY".toList
    (by decide) (Or.inl rfl)

/-! ### C6: report ordering, C9: totals ordering -/

instance : DecidableRel compDesc := fun a b =>
  inferInstanceAs (Decidable (b.compensation ≤ a.compensation))

instance : DecidableRel sameClubCompDesc := fun a b =>
  inferInstanceAs (Decidable (a.club = b.club → b.compensation ≤ a.compensation))

instance : IsTotal Player clubLe := ⟨fun a b => le_total a.club b.club⟩

instance : IsTrans Player clubLe := ⟨fun _ _ _ h1 h2 => le_trans h1 h2⟩

instance : IsTotal KeyValue valueGe := ⟨fun a b => (le_total a.value b.value).symm⟩

instance : IsTrans KeyValue valueGe := ⟨fun _ _ _ h1 h2 => le_trans h2 h1⟩

lemma pairwise_orderedInsert_club (x : Player) (s : List Player)
    (hs : s.Pairwise sameClubCompDesc) (hx : ∀ b ∈ s, sameClubCompDesc x b) :
    (List.orderedInsert clubLe x s).Pairwise sameClubCompDesc := by
  induction s with
  | nil => simp [List.orderedInsert, hs]
  | cons y ys ih =>
    simp only [List.orderedInsert]
    by_cases h : clubLe x y
    · rw [if_pos h]
      exact List.Pairwise.cons hx hs
    · rw [if_neg h]
      have hy : ∀ b ∈ List.orderedInsert clubLe x ys, sameClubCompDesc y b := by
        intro b hb
        rcases (List.mem_orderedInsert clubLe).mp hb with rfl | hb'
        · intro hcl
          apply absurd _ h
          show b.club ≤ y.club
          rw [← hcl]
        · exact (List.pairwise_cons.mp hs).1 b hb'
      exact List.Pairwise.cons hy
        (ih (List.pairwise_cons.mp hs).2 (fun b hb => hx b (List.mem_cons_of_mem y hb)))

lemma pairwise_insertionSort_club (l : List Player) (hl : l.Pairwise compDesc) :
    (List.insertionSort clubLe l).Pairwise sameClubCompDesc := by
  induction l with
  | nil => simp
  | cons a l ih =>
    simp only [List.insertionSort]
    apply pairwise_orderedInsert_club
    · exact ih (List.pairwise_cons.mp hl).2
    · intro b hb
      intro _
      exact (List.pairwise_cons.mp hl).1 b ((List.mem_insertionSort clubLe).mp hb)

/-- C6: starting from any arrangement of the accepted records that is
sorted by compensation descending (ties arbitrary, as left by the unstable
first sort), the stable sort by club produces a permutation of the records
that is sorted by club ascending and, within each club, still sorted by
compensation descending. -/
theorem c6_report_order (recs l₁ : List Player) (hperm : l₁.Perm recs)
    (hsorted : l₁.Pairwise compDesc) :
    (sortByClub l₁).Perm recs ∧
    List.Sorted clubLe (sortByClub l₁) ∧
    (sortByClub l₁).Pairwise sameClubCompDesc :=
  ⟨(List.perm_insertionSort clubLe l₁).trans hperm,
   List.sorted_insertionSort clubLe l₁,
   pairwise_insertionSort_club l₁ hsorted⟩

/-- Witness for C6 on three concrete records from two clubs. -/
theorem c6_witness :
    (sortByClub [⟨"CHI".toList, "A".toList, "F".toList, 0, 100⟩,
        ⟨"ATL".toList, "B".toList, "F".toList, 0, 50⟩,
        ⟨"ATL".toList, "C".toList, "F".toList, 0, 30⟩]).Perm
      [⟨"ATL".toList, "B".toList, "F".toList, 0, 50⟩,
        ⟨"CHI".toList, "A".toList, "F".toList, 0, 100⟩,
        ⟨"ATL".toList, "C".toList, "F".toList, 0, 30⟩] ∧
    List.Sorted clubLe
      (sortByClub [⟨"CHI".toList, "A".toList, "F".toList, 0, 100⟩,
        ⟨"ATL".toList, "B".toList, "F".toList, 0, 50⟩,
        ⟨"ATL".toList, "C".toList, "F".toList, 0, 30⟩]) ∧
    (sortByClub [⟨"CHI".toList, "A".toList, "F".toList, 0, 100⟩,
        ⟨"ATL".toList, "B".toList, "F".toList, 0, 50⟩,
        ⟨"ATL".toList, "C".toList, "F".toList, 0, 30⟩]).Pairwise
      sameClubCompDesc :=
  c6_report_order
    [⟨"ATL".toList, "B".toList, "F".toList, 0, 50⟩,
      ⟨"CHI".toList, "A".toList, "F".toList, 0, 100⟩,
      ⟨"ATL".toList, "C".toList, "F".toList, 0, 30⟩]
    [⟨"CHI".toList, "A".toList, "F".toList, 0, 100⟩,
      ⟨"ATL".toList, "B".toList, "F".toList, 0, 50⟩,
      ⟨"ATL".toList, "C".toList, "F".toList, 0, 30⟩]
    (by decide) (by decide)

/-- C9 counterexample: the club-totals section is not deterministic for
equal totals. `ClubTotals.Sort` copies the Go map in iteration order and
sorts only by total, so two iteration orders of the same totals map render
in different orders. -/
theorem c9_counterexample :
    List.Perm [KeyValue.mk "ATL".toList 5, KeyValue.mk "CHI".toList 5]
      [KeyValue.mk "CHI".toList 5, KeyValue.mk "ATL".toList 5] ∧
    sortTotals [KeyValue.mk "ATL".toList 5, KeyValue.mk "CHI".toList 5] ≠
      sortTotals [KeyValue.mk "CHI".toList 5, KeyValue.mk "ATL".toList 5] := by
  constructor
  · exact List.Perm.swap _ _ _
  · decide

/-- C9 amended: the totals section is always a permutation of the
accumulated totals sorted descending by total; the relative order of
groups with equal totals follows map iteration order and is the only
source of non-determinism. -/
theorem c9_totals_sorted_desc (entries : List KeyValue) :
    (sortTotals entries).Perm entries ∧
    List.Sorted valueGe (sortTotals entries) :=
  ⟨List.perm_insertionSort valueGe entries,
   List.sorted_insertionSort valueGe entries⟩

/-! ### C10: later amounts overwrite the compensation -/

/-- The value the salary case of the classifier would extract from a
token: `some v` exactly when the token reaches the salary case and its
stripped remainder parses to `v`. -/
def amountValue (t : Str) : Option ℚ :=
  if t == [] then none
  else if clubsHasVal allClubs t then none
  else if posHasVal allPos t then none
  else if amtStart t then
    (if dropDollars t == [] then none
     else parseFloatQ (dropCommas (dropDollars t)))
  else none

/-- The successfully parsed amounts of a token sequence, in order. -/
def amountValues (ts : List Str) : List ℚ := ts.filterMap amountValue

/-- The last element of a list, or a default for the empty list. -/
def lastOr (d : ℚ) : List ℚ → ℚ
  | [] => d
  | [x] => x
  | _ :: x :: xs => lastOr d (x :: xs)

lemma lastOr_default_irrel (d e x : ℚ) (xs : List ℚ) :
    lastOr d (x :: xs) = lastOr e (x :: xs) := by
  induction xs generalizing x with
  | nil => rfl
  | cons y ys ih => exact ih y

lemma lastOr_cons (d v : ℚ) (l : List ℚ) : lastOr d (v :: l) = lastOr v l := by
  cases l with
  | nil => rfl
  | cons x xs => exact lastOr_default_irrel d v x xs

lemma stepToken_amount_none (p : Player) (t : Str) (hv : amountValue t = none) :
    (stepToken p t).baseSalary = p.baseSalary ∧
    (stepToken p t).compensation = p.compensation := by
  by_cases h0 : t == []
  · simp [stepToken, h0]
  · by_cases h1 : clubsHasVal allClubs t
    · simp [stepToken, h0, h1]
    · by_cases h2 : posHasVal allPos t
      · simp [stepToken, h0, h1, h2]
      · by_cases h3 : amtStart t
        · simp only [amountValue, h0, h1, h2, h3, Bool.false_eq_true,
            if_false, if_true] at hv
          by_cases h4 : dropDollars t == []
          · simp [stepToken, h0, h1, h2, h3, h4]
          · simp only [h4, Bool.false_eq_true, if_false] at hv
            simp [stepToken, h0, h1, h2, h3, h4, hv]
        · by_cases hn : p.name == [] <;>
            simp [stepToken, h0, h1, h2, h3, hn]

lemma stepToken_amount_some (p : Player) (t : Str) (v : ℚ)
    (hv : amountValue t = some v) :
    stepToken p t =
      (if p.baseSalary = 0 then { p with baseSalary := v }
       else { p with compensation := v }) := by
  by_cases h0 : t == []
  · simp [amountValue, h0] at hv
  · by_cases h1 : clubsHasVal allClubs t
    · simp [amountValue, h0, h1] at hv
    · by_cases h2 : posHasVal allPos t
      · simp [amountValue, h0, h1, h2] at hv
      · by_cases h3 : amtStart t
        · simp only [amountValue, h0, h1, h2, h3, Bool.false_eq_true,
            if_false, if_true] at hv
          by_cases h4 : dropDollars t == []
          · simp [h4] at hv
          · simp only [h4, Bool.false_eq_true, if_false] at hv
            rw [stepToken_amt p (by simpa using h0) (by simpa using h1)
              (by simpa using h2) h3]
            rw [if_neg (by simpa using h4), hv]
            by_cases hb : p.baseSalary = 0 <;> simp [hb]
        · simp [amountValue, h0, h1, h2, h3] at hv

lemma foldl_base_nonzero (ts : List Str) (p : Player) (hb : p.baseSalary ≠ 0) :
    (ts.foldl stepToken p).baseSalary = p.baseSalary ∧
    (ts.foldl stepToken p).compensation =
      lastOr p.compensation (amountValues ts) := by
  induction ts generalizing p with
  | nil => simp [amountValues, lastOr]
  | cons t ts ih =>
    cases hvt : amountValue t with
    | none =>
      have h := stepToken_amount_none p t hvt
      have := ih (stepToken p t) (by rw [h.1]; exact hb)
      refine ⟨by rw [List.foldl_cons, this.1, h.1], ?_⟩
      rw [List.foldl_cons, this.2, h.2]
      simp [amountValues, List.filterMap_cons, hvt]
    | some w =>
      have h := stepToken_amount_some p t w hvt
      rw [if_neg hb] at h
      have := ih { p with compensation := w } hb
      refine ⟨by rw [List.foldl_cons, h, this.1], ?_⟩
      rw [List.foldl_cons, h, this.2]
      simp only [amountValues, List.filterMap_cons, hvt]
      rw [lastOr_cons]

lemma foldl_base_zero (v : ℚ) (vs : List ℚ) (hv : v ≠ 0) :
    ∀ (ts : List Str) (p : Player), p.baseSalary = 0 →
      amountValues ts = v :: vs →
      (ts.foldl stepToken p).baseSalary = v ∧
      (ts.foldl stepToken p).compensation = lastOr p.compensation vs := by
  intro ts
  induction ts with
  | nil =>
    intro p hb hav
    simp [amountValues] at hav
  | cons t ts ih =>
    intro p hb hav
    cases hvt : amountValue t with
    | none =>
      have h := stepToken_amount_none p t hvt
      have hav' : amountValues ts = v :: vs := by
        simpa [amountValues, List.filterMap_cons, hvt] using hav
      have hres := ih (stepToken p t) (by rw [h.1]; exact hb) hav'
      rw [List.foldl_cons]
      exact ⟨hres.1, by rw [hres.2, h.2]⟩
    | some w =>
      have h := stepToken_amount_some p t w hvt
      rw [if_pos hb] at h
      have hx : w :: amountValues ts = v :: vs := by
        simpa [amountValues, List.filterMap_cons, hvt] using hav
      injection hx with hw hts
      have h2 := foldl_base_nonzero ts { p with baseSalary := w }
        (by simpa [hw] using hv)
      refine ⟨by rw [List.foldl_cons, h, h2.1, hw], ?_⟩
      rw [List.foldl_cons, h, h2.2, hts]

/-- C10: on a line whose successfully parsed amounts are `v :: vs` with
`v ≠ 0` and at least one later amount, the first amount fills the base
salary and every later parsed amount overwrites the compensation, so the
final compensation is the last parsed amount of the line, not the second
one. -/
theorem c10_last_amount_wins (ts : List Str) (v : ℚ) (vs : List ℚ)
    (hav : amountValues ts = v :: vs) (hv : v ≠ 0) (hvs : vs ≠ []) :
    (classifyTokens ts).baseSalary = v ∧
    (classifyTokens ts).compensation = lastOr 0 (v :: vs) := by
  have h := foldl_base_zero v vs hv ts initPlayer rfl hav
  refine ⟨h.1, ?_⟩
  show (ts.foldl stepToken initPlayer).compensation = _
  rw [h.2, lastOr_cons]
  obtain ⟨x, xs, rfl⟩ := List.exists_cons_of_ne_nil hvs
  exact lastOr_default_irrel initPlayer.compensation v x xs

/-- Witness for C10: three parsed amounts `1000, 2000, 3000`; the final
compensation is the third, not the second. -/
theorem c10_witness :
    (classifyTokens ["1000".toList, "2000".toList, "3000".toList]).baseSalary
        = 1000 ∧
    (classifyTokens ["1000".toList, "2000".toList, "3000".toList]).compensation
        = lastOr 0 [1000, 2000, 3000] :=
  c10_last_amount_wins ["1000".toList, "2000".toList, "3000".toList]
    1000 [2000, 3000] (by decide) (by decide) (by decide)

/-! ### C8: idempotence of the classifier on its own rendered output -/

lemma splitOnChar_ne_nil (c : Char) (l : Str) : splitOnChar c l ≠ [] := by
  cases l with
  | nil => simp [splitOnChar]
  | cons x xs =>
    by_cases h : x == c
    · simp [splitOnChar, h]
    · simp only [splitOnChar, h, Bool.false_eq_true, if_false]
      cases hxs : splitOnChar c xs <;> simp

lemma splitOnChar_no_sep (c : Char) (l : Str) (h : ∀ a ∈ l, a ≠ c) :
    splitOnChar c l = [l] := by
  induction l with
  | nil => rfl
  | cons x xs ih =>
    have hx : (x == c) = false :=
      beq_eq_false_iff_ne.mpr (h x (List.mem_cons_self x xs))
    have hxs := ih (fun a ha => h a (List.mem_cons_of_mem x ha))
    simp [splitOnChar, hx, hxs]

lemma splitOnChar_append_sep (c : Char) (xs ys : Str) :
    splitOnChar c (xs ++ c :: ys) = splitOnChar c xs ++ splitOnChar c ys := by
  induction xs with
  | nil => simp [splitOnChar]
  | cons x xs ih =>
    by_cases h : x == c
    · simp [splitOnChar, h, ih]
    · obtain ⟨f, fs, hf⟩ := List.exists_cons_of_ne_nil (splitOnChar_ne_nil c xs)
      simp only [List.cons_append, splitOnChar, h, Bool.false_eq_true, if_false,
        List.append_eq] at ih ⊢
      rw [ih, hf]
      simp

lemma splitOnChar_struct (c : Char) (l : Str) :
    ∃ h t, splitOnChar c l = h :: t ∧
      h ++ t.flatMap (fun f => c :: f) = l := by
  induction l with
  | nil => exact ⟨[], [], rfl, rfl⟩
  | cons x xs ih =>
    obtain ⟨h, t, hsplit, hjoin⟩ := ih
    by_cases hx : x == c
    · refine ⟨[], h :: t, by simp [splitOnChar, hx, hsplit], ?_⟩
      simp only [List.nil_append, List.flatMap_cons]
      rw [List.cons_append, hjoin]
      exact congrArg (· :: xs) (eq_of_beq hx).symm ▸ rfl
    · refine ⟨x :: h, t, by simp [splitOnChar, hx, hsplit], ?_⟩
      rw [List.cons_append, hjoin]

/-- A name fragment: a token that falls through to the default branch of
the classifier (non-empty, not a club, not a position, not an amount). -/
def goodFrag (f : Str) : Prop :=
  f ≠ [] ∧ clubsHasVal allClubs f = false ∧ posHasVal allPos f = false ∧
    amtStart f = false

instance : DecidablePred goodFrag := fun f =>
  inferInstanceAs (Decidable (f ≠ [] ∧ clubsHasVal allClubs f = false ∧
    posHasVal allPos f = false ∧ amtStart f = false))

/-- The name accumulator of the classifier, iterated over several tokens. -/
def nameApp (n : Str) (fs : List Str) : Str :=
  fs.foldl (fun acc f => if acc == [] then f else acc ++ ' ' :: f) n

lemma nameApp_of_ne_nil : ∀ (fs : List Str) (n : Str), n ≠ [] →
    nameApp n fs = n ++ fs.flatMap (fun f => ' ' :: f) := by
  intro fs
  induction fs with
  | nil => intro n _; simp [nameApp]
  | cons f fs ih =>
    intro n hn
    have h1 : nameApp n (f :: fs) = nameApp (n ++ ' ' :: f) fs := by
      simp [nameApp, hn]
    rw [h1, ih (n ++ ' ' :: f) (by simp)]
    simp

lemma nameApp_nil_cons (h : Str) (t : List Str) :
    nameApp [] (h :: t) = nameApp h t := by
  simp [nameApp]

/-- Rebuilding a name from its space-separated fragments: if every
fragment of `n` is non-empty, re-accumulating them yields `n` again. -/
lemma nameApp_split (n : Str)
    (hf : ∀ f ∈ splitOnChar ' ' n, f ≠ []) :
    nameApp [] (splitOnChar ' ' n) = n := by
  obtain ⟨h, t, hsplit, hjoin⟩ := splitOnChar_struct ' ' n
  rw [hsplit, nameApp_nil_cons, nameApp_of_ne_nil t h
    (hf h (hsplit ▸ List.mem_cons_self h t)), hjoin]

lemma clubsAbv_mem (t : Str) (h : clubsHasVal allClubs t = true) :
    ∃ kv ∈ allClubs, clubsAbv allClubs t = kv.2 := by
  rw [clubsHasVal, Bool.or_eq_true] at h
  cases hk : allClubs.find? (fun kv => kv.1 == t) with
  | some kv =>
    exact ⟨kv, List.mem_of_find?_eq_some hk, by simp only [clubsAbv, hk]⟩
  | none =>
    rcases h with h | h
    · rw [hk] at h
      simp at h
    · rw [clubsGetKey] at h
      cases hv : allClubs.find? (fun kv => kv.2 == t) with
      | none =>
        rw [hv] at h
        simp at h
      | some kv =>
        refine ⟨kv, List.mem_of_find?_eq_some hv, ?_⟩
        have hpred := List.find?_some hv
        have ht : kv.2 = t := eq_of_beq hpred
        simp only [clubsAbv, hk, clubsGetKey, hv, Option.isSome_some, if_true]
        exact ht.symm

lemma stepToken_club_cases (p : Player) (t : Str) :
    (stepToken p t).club = p.club ∨
    (clubsHasVal allClubs t = true ∧
      (stepToken p t).club = clubsAbv allClubs t) := by
  by_cases h0 : t == []
  · left; simp [stepToken, h0]
  · by_cases h1 : clubsHasVal allClubs t
    · right
      exact ⟨h1, by simp [stepToken, h0, h1]⟩
    · left
      by_cases h2 : posHasVal allPos t
      · simp [stepToken, h0, h1, h2]
      · by_cases h3 : amtStart t
        · rw [stepToken_amt p (by simpa using h0) (by simpa using h1)
            (by simpa using h2) h3]
          by_cases h4 : dropDollars t == []
          · simp [h4]
          · simp only [h4, Bool.false_eq_true, if_false]
            cases parseFloatQ (dropCommas (dropDollars t)) with
            | none => rfl
            | some v => by_cases hb : p.baseSalary == 0 <;> simp [hb]
        · by_cases hn : p.name == [] <;> simp [stepToken, h0, h1, h2, h3, hn]

lemma stepToken_pos_cases (p : Player) (t : Str) :
    (stepToken p t).pos = p.pos ∨
    (clubsHasVal allClubs t = false ∧ posHasVal allPos t = true ∧
      (stepToken p t).pos = t) := by
  by_cases h0 : t == []
  · left; simp [stepToken, h0]
  · by_cases h1 : clubsHasVal allClubs t
    · left; simp [stepToken, h0, h1]
    · by_cases h2 : posHasVal allPos t
      · right
        exact ⟨by simpa using h1, h2, by simp [stepToken, h0, h1, h2]⟩
      · left
        by_cases h3 : amtStart t
        · rw [stepToken_amt p (by simpa using h0) (by simpa using h1)
            (by simpa using h2) h3]
          by_cases h4 : dropDollars t == []
          · simp [h4]
          · simp only [h4, Bool.false_eq_true, if_false]
            cases parseFloatQ (dropCommas (dropDollars t)) with
            | none => rfl
            | some v => by_cases hb : p.baseSalary == 0 <;> simp [hb]
        · by_cases hn : p.name == [] <;> simp [stepToken, h0, h1, h2, h3, hn]

lemma stepToken_name_cases (p : Player) (t : Str) :
    (stepToken p t).name = p.name ∨
    (t ≠ [] ∧ clubsHasVal allClubs t = false ∧ posHasVal allPos t = false ∧
      amtStart t = false ∧
      (stepToken p t).name = (if p.name == [] then t else p.name ++ ' ' :: t)) := by
  by_cases h0 : t == []
  · left; simp [stepToken, h0]
  · by_cases h1 : clubsHasVal allClubs t
    · left; simp [stepToken, h0, h1]
    · by_cases h2 : posHasVal allPos t
      · left; simp [stepToken, h0, h1, h2]
      · by_cases h3 : amtStart t
        · left
          rw [stepToken_amt p (by simpa using h0) (by simpa using h1)
            (by simpa using h2) h3]
          by_cases h4 : dropDollars t == []
          · simp [h4]
          · simp only [h4, Bool.false_eq_true, if_false]
            cases parseFloatQ (dropCommas (dropDollars t)) with
            | none => rfl
            | some v => by_cases hb : p.baseSalary == 0 <;> simp [hb]
        · right
          refine ⟨by simpa using h0, by simpa using h1, by simpa using h2,
            by simpa using h3, ?_⟩
          rw [stepToken_name p (by simpa using h0) (by simpa using h1)
            (by simpa using h2) (by simpa using h3)]

lemma stepToken_amtInv (p : Player) (t : Str)
    (h : p.compensation ≠ 0 → p.baseSalary ≠ 0) :
    (stepToken p t).compensation ≠ 0 → (stepToken p t).baseSalary ≠ 0 := by
  cases hv : amountValue t with
  | none =>
    have hu := stepToken_amount_none p t hv
    intro hc
    rw [hu.1]
    exact h (by rw [← hu.2]; exact hc)
  | some v =>
    rw [stepToken_amount_some p t v hv]
    by_cases hb : p.baseSalary = 0
    · rw [if_pos hb]
      intro hc
      exact absurd (h (by simpa using hc)) (by simpa using hb)
    · rw [if_neg hb]
      intro _
      simpa using hb

/-- Invariant of classifier states: the club is empty or a canonical
abbreviation; the position is empty or a recognized (non-club) position
token; the name is empty or made of good space-separated fragments; a
non-zero compensation implies a non-zero base salary. -/
def RecInv (p : Player) : Prop :=
  (p.club = [] ∨ ∃ kv ∈ allClubs, p.club = kv.2) ∧
  (p.pos = [] ∨ (clubsHasVal allClubs p.pos = false ∧
    posHasVal allPos p.pos = true)) ∧
  (p.name = [] ∨ ∀ f ∈ splitOnChar ' ' p.name, goodFrag f) ∧
  (p.compensation ≠ 0 → p.baseSalary ≠ 0)

lemma recInv_init : RecInv initPlayer := by
  refine ⟨Or.inl rfl, Or.inl rfl, Or.inl rfl, fun h => absurd rfl h⟩

lemma recInv_step (p : Player) (t : Str) (hsp : ∀ c ∈ t, c ≠ ' ')
    (h : RecInv p) : RecInv (stepToken p t) := by
  obtain ⟨hclub, hpos, hname, hamt⟩ := h
  refine ⟨?_, ?_, ?_, stepToken_amtInv p t hamt⟩
  · rcases stepToken_club_cases p t with hc | ⟨hhas, hc⟩
    · rw [hc]; exact hclub
    · rw [hc]; exact Or.inr (clubsAbv_mem t hhas)
  · rcases stepToken_pos_cases p t with hc | ⟨hcl, hps, hc⟩
    · rw [hc]; exact hpos
    · rw [hc]; exact Or.inr ⟨hcl, hps⟩
  · rcases stepToken_name_cases p t with hc | ⟨hne, hcl, hps, ham, hc⟩
    · rw [hc]; exact hname
    · rw [hc]
      right
      by_cases hn : p.name == []
      · simp only [hn, if_true]
        rw [splitOnChar_no_sep ' ' t (fun a ha hb => hsp a ha hb)]
        intro f hf
        rw [List.mem_singleton] at hf
        subst hf
        exact ⟨hne, hcl, hps, ham⟩
      · simp only [hn, Bool.false_eq_true, if_false]
        rw [splitOnChar_append_sep, splitOnChar_no_sep ' ' t
          (fun a ha hb => hsp a ha hb)]
        intro f hf
        rcases List.mem_append.mp hf with hf | hf
        · have hpn : p.name ≠ [] := by simpa using hn
          rcases hname with he | hg
          · exact absurd he hpn
          · exact hg f hf
        · rw [List.mem_singleton] at hf
          subst hf
          exact ⟨hne, hcl, hps, ham⟩

lemma recInv_foldl : ∀ (ts : List Str) (p : Player),
    (∀ t ∈ ts, ∀ c ∈ t, c ≠ ' ') → RecInv p →
    RecInv (ts.foldl stepToken p) := by
  intro ts
  induction ts with
  | nil => intro p _ h; exact h
  | cons t ts ih =>
    intro p hsp h
    rw [List.foldl_cons]
    exact ih (stepToken p t) (fun u hu => hsp u (List.mem_cons_of_mem t hu))
      (recInv_step p t (hsp t (List.mem_cons_self t ts)) h)

lemma recInv_classify (ts : List Str) (hsp : ∀ t ∈ ts, ∀ c ∈ t, c ≠ ' ') :
    RecInv (classifyTokens ts) :=
  recInv_foldl ts initPlayer hsp recInv_init

lemma foldl_name_frags : ∀ (fs : List Str) (p : Player),
    (∀ f ∈ fs, goodFrag f) →
    fs.foldl stepToken p = { p with name := nameApp p.name fs } := by
  intro fs
  induction fs with
  | nil => intro p _; rfl
  | cons f fs ih =>
    intro p hf
    obtain ⟨hne, hcl, hps, ham⟩ := hf f (List.mem_cons_self f fs)
    rw [List.foldl_cons, stepToken_name p hne hcl hps ham,
      ih _ (fun g hg => hf g (List.mem_cons_of_mem f hg))]
    simp only [nameApp, List.foldl_cons]

/-- The record rendered back into a token sequence: its club, its name
split into space-separated fragments, its position, and one token for each
of the two amounts. -/
def renderTokens (p : Player) (a1 a2 : Str) : List Str :=
  p.club :: splitOnChar ' ' p.name ++ [p.pos, a1, a2]

/-- C8: classification is idempotent on its own rendered output. For any
line of space-free tokens and any rendered amount tokens that parse back
to the record's two amounts, re-running the classifier on the re-joined
club, name, position and amount tokens reproduces the record exactly. -/
theorem c8_classifier_idempotent (ts : List Str) (a1 a2 : Str)
    (hsp : ∀ t ∈ ts, ∀ c ∈ t, c ≠ ' ')
    (h1 : amountValue a1 = some (classifyTokens ts).baseSalary)
    (h2 : amountValue a2 = some (classifyTokens ts).compensation) :
    classifyTokens (renderTokens (classifyTokens ts) a1 a2) =
      classifyTokens ts := by
  have inv := recInv_classify ts hsp
  set p := classifyTokens ts with hp
  have hq1 : stepToken initPlayer p.club = ⟨p.club, [], [], 0, 0⟩ := by
    rcases inv.1 with hc | ⟨kv, hkv, hc⟩
    · rw [hc, stepToken_nil_token]
      rfl
    · obtain ⟨_, hk2, _, hh2, _, ha2⟩ := allClubs_canonical kv hkv
      rw [hc, stepToken_club initPlayer hk2 hh2, ha2]
      rfl
  have hq2 : List.foldl stepToken (⟨p.club, [], [], 0, 0⟩ : Player)
      (splitOnChar ' ' p.name) = ⟨p.club, p.name, [], 0, 0⟩ := by
    rcases inv.2.2.1 with hn | hn
    · rw [hn]
      show List.foldl stepToken _ [[]] = _
      rw [List.foldl_cons, stepToken_nil_token, List.foldl_nil]
    · rw [foldl_name_frags _ _ hn]
      have hproj : (⟨p.club, [], [], 0, 0⟩ : Player).name = [] := rfl
      rw [hproj, nameApp_split p.name (fun f hf => (hn f hf).1)]
  have hq3 : stepToken (⟨p.club, p.name, [], 0, 0⟩ : Player) p.pos =
      ⟨p.club, p.name, p.pos, 0, 0⟩ := by
    rcases inv.2.1 with hc | ⟨hcl, hps⟩
    · rw [hc, stepToken_nil_token]
    · have hpn : p.pos ≠ [] := by
        intro he
        rw [he] at hps
        exact absurd hps (by decide)
      rw [stepToken_pos _ hpn hcl hps]
  have hq4 : stepToken (⟨p.club, p.name, p.pos, 0, 0⟩ : Player) a1 =
      ⟨p.club, p.name, p.pos, p.baseSalary, 0⟩ := by
    rw [stepToken_amount_some _ a1 _ h1, if_pos rfl]
  have hpe : p = ⟨p.club, p.name, p.pos, p.baseSalary, p.compensation⟩ := rfl
  have hq5 : stepToken
      (⟨p.club, p.name, p.pos, p.baseSalary, 0⟩ : Player) a2 = p := by
    rw [stepToken_amount_some _ a2 _ h2]
    by_cases hb : p.baseSalary = 0
    · have hcz : p.compensation = 0 := by
        by_contra hcc
        exact inv.2.2.2 hcc hb
      rw [if_pos hb]
      conv_rhs => rw [hpe]
      rw [hb, hcz]
    · rw [if_neg hb]
  show List.foldl stepToken initPlayer (renderTokens p a1 a2) = p
  simp only [renderTokens, List.foldl_cons, List.foldl_append, List.foldl_nil]
  rw [hq1, hq2, hq3, hq4, hq5]

/-- Witness for C8: re-classifying the rendered record of the spec's
end-to-end example line reproduces the record. -/
theorem c8_witness :
    classifyTokens (renderTokens
      (classifyTokens ["LAFC".toList, "Carlos".toList, "Vela".toList,
        "F".toList, "$50,000".toList, "$6,300,000".toList])
      "50000".toList "6300000".toList) =
    classifyTokens ["LAFC".toList, "Carlos".toList, "Vela".toList,
      "F".toList, "$50,000".toList, "$6,300,000".toList] :=
  c8_classifier_idempotent
    ["LAFC".toList, "Carlos".toList, "Vela".toList, "F".toList,
      "$50,000".toList, "$6,300,000".toList]
    "50000".toList "6300000".toList (by decide) (by decide) (by decide)
